import Mathlib

/-!
Verification of the sparse-file stress-and-verification tool (`hcsvm` /
`sparsefile.go`).  The Go program creates a large sparse file, writes
checksum-tagged blocks at offsets chosen by one of three placement modes
(`rand`, `seq`, `stream`), then scans the file in block-sized strides and
verifies every non-zero block against its embedded Adler-32 trailer.

Shallow embedding conventions:
* bytes are `Nat` values (< 256 where it matters);
* the two pseudo-random sources of the program are modelled as oracle
  streams `Nat → Nat`, indexed by draw position, with each draw reduced
  into its documented range by `%`: `rs` models the seeded generator
  `r := rand.New(rand.NewSource(seed))` (used only for offsets), and `gs`
  models the package-global `math/rand` source (used by `fillBuf` for
  payload bytes and by stream mode for run lengths), whose initial state
  is Go's fixed default, independent of the configured seed;
* the sparse file is modelled by the log of writes performed (latest
  first); a byte reads back as the latest write covering it, or 0 if no
  write covers it (the sparse-hole convention);
* `log.Fatal` calls and the unbounded rejection loop of stream mode are
  modelled with `Option` results and fuel.
-/

namespace SparseFile

/-- Adler-32 modulus, the prime 65521, from `hash/adler32`. -/
def adlerMod : Nat := 65521

/-- One byte of the Adler-32 recurrence: `a := (a + c) % 65521`,
`b := (b + a) % 65521`, from `hash/adler32`. -/
def adlerStep (s : Nat × Nat) (c : Nat) : Nat × Nat :=
  ((s.1 + c) % adlerMod, (s.2 + (s.1 + c) % adlerMod) % adlerMod)

/-- The Adler-32 accumulator pair after processing a byte list, seeded
with `a = 1, b = 0`, from `hash/adler32`. -/
def adlerPair (l : List Nat) : Nat × Nat := l.foldl adlerStep (1, 0)

/-- The Adler-32 checksum `(b <<< 16) ||| a` of a byte list, as computed
by `adler32.Checksum`. -/
def adler32 (l : List Nat) : Nat := (adlerPair l).2 * 65536 + (adlerPair l).1

/-- The four little-endian bytes of a 32-bit value, as produced by
`binary.LittleEndian.PutUint32`. -/
def putUint32LE (x : Nat) : List Nat :=
  [x % 256, x / 256 % 256, x / 65536 % 256, x / 16777216 % 256]

/-- The 32-bit value read from four little-endian bytes, as computed by
`binary.LittleEndian.Uint32`. -/
def uint32LE (l : List Nat) : Nat :=
  l.getD 0 0 + l.getD 1 0 * 256 + l.getD 2 0 * 65536 + l.getD 3 0 * 16777216

/-- The checksum-appending step of `fillBuf`: the payload followed by the
little-endian Adler-32 checksum of the payload as the trailing 4 bytes. -/
def encode (p : List Nat) : List Nat := p ++ putUint32LE (adler32 p)

/-- The function `verifyBuf`: recompute the Adler-32 checksum of
`b[:len(b)-4]` and compare it with the trailing 4 bytes read
little-endian. -/
def verifyBuf (b : List Nat) : Bool :=
  adler32 (b.take (b.length - 4)) == uint32LE (b.drop (b.length - 4))

/-- Payload bytes of `fillBuf`: byte `i` is `byte(rand.Intn(255))`, a
draw from the package-global generator, modelled as `g (gpos + i) % 255`. -/
def fillBufPayload (g : Nat → Nat) (gpos n : Nat) : List Nat :=
  (List.range n).map (fun i => g (gpos + i) % 255)

/-- The function `fillBuf`: `log.Fatal` (modelled as `none`) when the
block size is below 8 or not a multiple of 4; otherwise a block of `n`
random bytes whose last 4 bytes are overwritten with the little-endian
Adler-32 checksum of the first `n - 4`.  The call consumes `n` draws of
the package-global generator (the last 4 are generated and then
overwritten by the checksum). -/
def fillBuf (g : Nat → Nat) (gpos n : Nat) : Option (List Nat) :=
  if n < 8 then none
  else if n % 4 ≠ 0 then none
  else some (encode (fillBufPayload g gpos (n - 4)))

theorem putUint32LE_length (x : Nat) : (putUint32LE x).length = 4 := rfl

theorem encode_length (p : List Nat) : (encode p).length = p.length + 4 := by
  simp [encode, putUint32LE]

theorem encode_take (p : List Nat) : (encode p).take p.length = p :=
  List.take_left p _

theorem encode_drop (p : List Nat) : (encode p).drop p.length = putUint32LE (adler32 p) :=
  List.drop_left p _

theorem uint32LE_putUint32LE (x : Nat) (h : x < 4294967296) :
    uint32LE (putUint32LE x) = x := by
  simp only [uint32LE, putUint32LE, List.getD_cons_zero, List.getD_cons_succ]
  omega

theorem foldl_adlerStep_fst (l : List Nat) :
    ∀ a b : Nat, a < adlerMod →
      (List.foldl adlerStep (a, b) l).1 = (a + l.sum) % adlerMod := by
  induction l with
  | nil =>
    intro a b ha
    simpa using (Nat.mod_eq_of_lt ha).symm
  | cons c t ih =>
    intro a b ha
    simp only [List.foldl_cons, List.sum_cons, adlerStep]
    rw [ih ((a + c) % adlerMod) _ (Nat.mod_lt _ (by simp [adlerMod]))]
    rw [Nat.mod_add_mod, Nat.add_assoc]

theorem foldl_adlerStep_snd_lt (l : List Nat) :
    ∀ a b : Nat, b < adlerMod →
      (List.foldl adlerStep (a, b) l).2 < adlerMod := by
  induction l with
  | nil => intro a b hb; simpa using hb
  | cons c t ih =>
    intro a b _
    simp only [List.foldl_cons]
    exact ih _ _ (Nat.mod_lt _ (by simp [adlerMod]))

theorem adlerPair_fst (l : List Nat) :
    (adlerPair l).1 = (1 + l.sum) % adlerMod :=
  foldl_adlerStep_fst l 1 0 (by simp [adlerMod])

theorem adlerPair_fst_lt (l : List Nat) : (adlerPair l).1 < adlerMod := by
  rw [adlerPair_fst]
  exact Nat.mod_lt _ (by simp [adlerMod])

theorem adlerPair_snd_lt (l : List Nat) : (adlerPair l).2 < adlerMod :=
  foldl_adlerStep_snd_lt l 1 0 (by simp [adlerMod])

theorem adler32_lt (l : List Nat) : adler32 l < 4294967296 := by
  have h1 := adlerPair_fst_lt l
  have h2 := adlerPair_snd_lt l
  simp only [adler32, adlerMod] at *
  omega

theorem adler32_mod_65536 (l : List Nat) : adler32 l % 65536 = (adlerPair l).1 := by
  have h1 := adlerPair_fst_lt l
  simp only [adler32, adlerMod] at *
  omega

theorem verifyBuf_encode (p : List Nat) : verifyBuf (encode p) = true := by
  unfold verifyBuf
  rw [encode_length, Nat.add_sub_cancel, encode_take, encode_drop,
    uint32LE_putUint32LE _ (adler32_lt p)]
  exact beq_self_eq_true _

/-- Claim C1: for every valid configuration (block size at least 8 and a
multiple of 4) and every payload buffer of length `blockSize - 4`,
encoding the payload (appending the little-endian Adler-32 checksum as
the trailing 4 bytes, as `fillBuf` does) and then running the
decode-and-verify step `verifyBuf` on the unmodified block always
reports a match. -/
theorem encode_then_verify_matches (n : Nat) (p : List Nat)
    (h8 : 8 ≤ n) (h4 : n % 4 = 0) (hp : p.length = n - 4) :
    verifyBuf (encode p) = true :=
  verifyBuf_encode p

theorem encode_then_verify_matches_witness :
    8 ≤ 8 ∧ 8 % 4 = 0 ∧ ([0, 0, 0, 0] : List Nat).length = 8 - 4 ∧
      verifyBuf (encode [0, 0, 0, 0]) = true :=
  ⟨by decide, by decide, by decide,
    encode_then_verify_matches 8 [0, 0, 0, 0] (by decide) (by decide) (by decide)⟩

/-- Single-bit corruption of a buffer: byte `i` has bit `k` flipped. -/
def flipBit (l : List Nat) (i k : Nat) : List Nat :=
  l.set i (l.getD i 0 ^^^ 2 ^ k)

set_option maxRecDepth 8192 in
theorem xor_bit_ne : ∀ c < 256, ∀ k < 8, c ^^^ 2 ^ k ≠ c := by decide

set_option maxRecDepth 8192 in
theorem xor_bit_lt : ∀ c < 256, ∀ k < 8, c ^^^ 2 ^ k < 256 := by decide

theorem sum_set_add (l : List Nat) :
    ∀ i x : Nat, i < l.length → (l.set i x).sum + l.getD i 0 = l.sum + x := by
  induction l with
  | nil => intro i x h; simp at h
  | cons c t ih =>
    intro i x h
    cases i with
    | zero => simp only [List.set, List.sum_cons, List.getD_cons_zero]; omega
    | succ j =>
      simp only [List.set, List.sum_cons, List.getD_cons_succ]
      have hj : j < t.length := by simpa using h
      have := ih j x hj
      omega

theorem adler32_set_ne (p : List Nat) (i x : Nat) (hi : i < p.length)
    (hx : x < adlerMod) (hc : p.getD i 0 < adlerMod) (hne : x ≠ p.getD i 0) :
    adler32 (p.set i x) ≠ adler32 p := by
  intro heq
  have hfst : (adlerPair (p.set i x)).1 = (adlerPair p).1 := by
    rw [← adler32_mod_65536, ← adler32_mod_65536, heq]
  rw [adlerPair_fst, adlerPair_fst] at hfst
  have hme : (1 + (p.set i x).sum) ≡ (1 + p.sum) [MOD adlerMod] := hfst
  have hsum := sum_set_add p i x hi
  have hme2 : (1 + p.sum) + x ≡ (1 + p.sum) + p.getD i 0 [MOD adlerMod] := by
    have := hme.add_right (p.getD i 0)
    calc (1 + p.sum) + x = (1 + (p.set i x).sum) + p.getD i 0 := by omega
    _ ≡ (1 + p.sum) + p.getD i 0 [MOD adlerMod] := this
  have hxc : x ≡ p.getD i 0 [MOD adlerMod] :=
    Nat.ModEq.add_left_cancel (Nat.ModEq.refl _) hme2
  have : x = p.getD i 0 := by
    have h1 : x % adlerMod = p.getD i 0 % adlerMod := hxc
    rw [Nat.mod_eq_of_lt hx, Nat.mod_eq_of_lt hc] at h1
    exact h1
  exact hne this

/-- Claim C3: for every encoded block and every single bit position within
the payload region (the first `blockSize - 4` bytes, not the 4-byte
trailer), flipping exactly that one bit after encoding makes the
decode-and-verify step `verifyBuf` report a mismatch.  A single-bit flip
changes one payload byte by a non-zero amount below 65521, which always
changes the low 16 bits of the Adler-32 checksum. -/
theorem single_bit_flip_detected (p : List Nat) (i k : Nat)
    (hi : i < p.length) (hk : k < 8) (hbytes : ∀ x ∈ p, x < 256) :
    verifyBuf (flipBit (encode p) i k) = false := by
  have hc : p.getD i 0 < 256 := by
    rw [List.getD_eq_getElem p 0 hi]
    exact hbytes _ (List.getElem_mem hi)
  have hgetD : (p ++ putUint32LE (adler32 p)).getD i 0 = p.getD i 0 :=
    List.getD_append p _ 0 i hi
  have hset : flipBit (encode p) i k = p.set i (p.getD i 0 ^^^ 2 ^ k) ++ putUint32LE (adler32 p) := by
    unfold flipBit encode
    rw [List.set_append, if_pos hi, hgetD]
  set c' := p.getD i 0 ^^^ 2 ^ k with hc'
  have hlen : (p.set i c').length = p.length := List.length_set p i c'
  rw [hset]
  unfold verifyBuf
  have hlt : c' < 256 := xor_bit_lt _ hc _ hk
  have hlen2 : (p.set i c' ++ putUint32LE (adler32 p)).length = p.length + 4 := by
    simp [hlen, putUint32LE]
  rw [hlen2, Nat.add_sub_cancel, ← hlen, List.take_left, List.drop_left]
  rw [uint32LE_putUint32LE _ (adler32_lt p)]
  apply beq_eq_false_iff_ne.mpr
  exact adler32_set_ne p i c' hi (lt_trans hlt (by simp [adlerMod]))
    (lt_trans hc (by simp [adlerMod])) (xor_bit_ne _ hc _ hk)

theorem single_bit_flip_detected_witness :
    0 < ([0, 0, 0, 0] : List Nat).length ∧ 0 < 8 ∧
      verifyBuf (flipBit (encode [0, 0, 0, 0]) 0 0) = false :=
  ⟨by decide, by decide,
    single_bit_flip_detected [0, 0, 0, 0] 0 0 (by decide) (by decide) (by decide)⟩

theorem fillBuf_some (g : Nat → Nat) (gpos n : Nat) (b : List Nat)
    (h : fillBuf g gpos n = some b) :
    8 ≤ n ∧ n % 4 = 0 ∧ b = encode (fillBufPayload g gpos (n - 4)) ∧ b.length = n := by
  unfold fillBuf at h
  by_cases h8 : n < 8
  · rw [if_pos h8] at h; cases h
  · rw [if_neg h8] at h
    by_cases h4 : n % 4 ≠ 0
    · rw [if_pos h4] at h; cases h
    · rw [if_neg h4] at h
      have hb : b = encode (fillBufPayload g gpos (n - 4)) := (Option.some_inj.mp h).symm
      refine ⟨by omega, by omega, hb, ?_⟩
      rw [hb, encode_length]
      simp only [fillBufPayload, List.length_map, List.length_range]
      omega

/-- Claim C10: every block produced by the generator `fillBuf` is
distinct from the all-zero buffer of the same size: if all payload bytes
are zero the Adler-32 trailer is non-zero (its low byte is 1, since the
accumulator `a` is seeded with 1), so the verifier's all-zero hole test
can never misclassify a freshly written, uncorrupted block as an
untouched hole. -/
theorem fillBuf_never_all_zero (g : Nat → Nat) (gpos n : Nat) (b : List Nat)
    (h : fillBuf g gpos n = some b) : b ≠ List.replicate n 0 := by
  obtain ⟨h8, _, hb, hlen⟩ := fillBuf_some g gpos n b h
  intro hz
  set p := fillBufPayload g gpos (n - 4) with hp
  have hplen : p.length = n - 4 := by
    simp [hp, fillBufPayload]
  -- the payload is forced to be all zeros
  have hpz : p = List.replicate (n - 4) 0 := by
    have := encode_take p
    rw [← hb, hz, hplen, List.take_replicate] at this
    rw [← this]
    congr 1
    omega
  -- the trailer is forced to be all zeros
  have htz : putUint32LE (adler32 p) = List.replicate 4 0 := by
    have := encode_drop p
    rw [← hb, hz, hplen, List.drop_replicate] at this
    rw [← this]
    congr 1
    omega
  -- but the low byte of the checksum of an all-zero payload is 1
  have hsum : p.sum = 0 := by
    rw [hpz]
    simp
  have hfst : (adlerPair p).1 = 1 := by
    rw [adlerPair_fst, hsum]
    simp [adlerMod]
  have hlow : adler32 p % 256 = 1 := by
    have : adler32 p % 65536 = 1 := by rw [adler32_mod_65536, hfst]
    omega
  have : (putUint32LE (adler32 p)).getD 0 0 = 1 := by
    simp [putUint32LE, hlow]
  rw [htz] at this
  simp at this

theorem fillBuf_never_all_zero_witness :
    fillBuf (fun _ => 0) 0 8 = some (encode [0, 0, 0, 0]) ∧
      encode [0, 0, 0, 0] ≠ List.replicate 8 0 :=
  ⟨by decide, fillBuf_never_all_zero (fun _ => 0) 0 8 _ (by decide)⟩

/-- Placement modes of the tool: `rand`, `seq`, `stream`. -/
inductive Mode
  | rand
  | seq
  | stream
deriving DecidableEq

/-- Configuration surface of `main` relevant to the modelled behaviour:
`-blocksize`, `-blocks`, `-size`, `-mode`, `-stream-min`, `-stream-max`.
The seed is represented by the oracle stream `rs` passed to `run`; the
`-sync`, `-file` and `-v` flags do not affect the modelled state. -/
structure Config where
  blockSz : Nat
  numBlocks : Nat
  fileSz : Nat
  mode : Mode
  minBlocks : Nat
  maxBlocks : Nat
deriving DecidableEq

/-- Total number of whole blocks in the file: `totalBlocks := fileSz / blockSz`. -/
def totalBlocks (c : Config) : Nat := c.fileSz / c.blockSz

/-- The distinct `log.Fatal` exits of the program. -/
inductive FatalErr
  | blockTooBig
  | streamBounds
  | fileTooSmall
  | bufTooSmall
  | bufMisaligned
  | countExceeds
deriving DecidableEq

/-- The up-front configuration checks of `main`, in source order:
`blockSz >= fileSz`, `minBlocks >= maxBlocks`, and for `seq` mode
`numBlocks > totalBlocks`. -/
def validate (c : Config) : Option FatalErr :=
  if c.fileSz ≤ c.blockSz then some FatalErr.blockTooBig
  else if c.maxBlocks ≤ c.minBlocks then some FatalErr.streamBounds
  else if c.mode = Mode.seq ∧ totalBlocks c < c.numBlocks then some FatalErr.fileTooSmall
  else none

/-- The stream-mode rejection loop: repeatedly draw
`offBlock := r.Int63n(totalBlocks)` until `offBlock + runLen ≤ totalBlocks`.
Returns the chosen starting block index and the next position in the
seeded stream, or `none` when no feasible draw occurs within `fuel`
attempts (the Go loop would still be spinning). -/
def findStart (rs : Nat → Nat) (tb runLen : Nat) : Nat → Nat → Option (Nat × Nat)
  | _, 0 => none
  | rpos, fuel + 1 =>
    let ob := rs rpos % tb
    if ob + runLen ≤ tb then some (ob, rpos + 1)
    else findStart rs tb runLen (rpos + 1) fuel

/-- Mutable state of the write loop in `main`: positions in the two
random streams, the current byte offset `off`, the stream-mode remaining
run counter `streamBlocks`, and the log of writes performed so far
(latest first). -/
structure GenState where
  gpos : Nat
  rpos : Nat
  off : Nat
  streamRem : Nat
  writes : List (Nat × List Nat)
deriving DecidableEq

/-- Result of the write phase: a `log.Fatal` inside `fillBuf`, the
rejection loop spinning past its fuel, or normal completion with the
final write log. -/
inductive WriteOutcome
  | fatal (e : FatalErr) (writes : List (Nat × List Nat))
  | hang (writes : List (Nat × List Nat))
  | done (writes : List (Nat × List Nat))
deriving DecidableEq

/-- The write loop of `main`, by remaining iteration count.  Each
iteration calls `fillBuf` (consuming `blockSz` global draws), chooses an
offset according to the mode, and performs `f.WriteAt(b, off)`, recorded
by prepending to the write log.  In stream mode a fresh run draws its
length from the package-global generator and its starting block from the
seeded generator via the rejection loop. -/
def writeLoop (c : Config) (rs gs : Nat → Nat) (fuel : Nat) : Nat → GenState → WriteOutcome
  | 0, st => WriteOutcome.done st.writes
  | rem + 1, st =>
    match fillBuf gs st.gpos c.blockSz with
    | none =>
      WriteOutcome.fatal
        (if c.blockSz < 8 then FatalErr.bufTooSmall else FatalErr.bufMisaligned) st.writes
    | some b =>
      let gpos := st.gpos + c.blockSz
      match c.mode with
      | Mode.rand =>
        let off := rs st.rpos % totalBlocks c * c.blockSz
        writeLoop c rs gs fuel rem
          ⟨gpos, st.rpos + 1, off, st.streamRem, (off, b) :: st.writes⟩
      | Mode.seq =>
        let off := (c.numBlocks - (rem + 1)) * c.blockSz
        writeLoop c rs gs fuel rem
          ⟨gpos, st.rpos, off, st.streamRem, (off, b) :: st.writes⟩
      | Mode.stream =>
        if st.streamRem = 0 then
          let len := c.minBlocks + gs gpos % (c.maxBlocks - c.minBlocks + 1)
          match findStart rs (totalBlocks c) len st.rpos fuel with
          | none => WriteOutcome.hang st.writes
          | some (ob, rpos) =>
            let off := ob * c.blockSz
            writeLoop c rs gs fuel rem
              ⟨gpos + 1, rpos, off, len - 1, (off, b) :: st.writes⟩
        else
          let off := st.off + c.blockSz
          writeLoop c rs gs fuel rem
            ⟨gpos, st.rpos, off, st.streamRem - 1, (off, b) :: st.writes⟩

/-- Sparse-file read model: a byte address reads back as the latest write
covering it, and as 0 when no write covers it (the hole convention the
tool relies on). -/
def readByte (ws : List (Nat × List Nat)) (addr : Nat) : Nat :=
  match ws with
  | [] => 0
  | (off, d) :: rest =>
    if off ≤ addr ∧ addr < off + d.length then d.getD (addr - off) 0
    else readByte rest addr

/-- The `blockSize` bytes read back at a given byte offset, as by
`f.ReadAt(b, off)`. -/
def readBlock (ws : List (Nat × List Nat)) (off n : Nat) : List Nat :=
  (List.range n).map (fun j => readByte ws (off + j))

/-- The byte offsets scanned by the verification loop of `main`:
`off = i * blockSz` for `i = 0, 1, …, totalBlocks - 1` with
`totalBlocks = fileSz / blockSz`. -/
def scanOffsets (blockSz fileSz : Nat) : List Nat :=
  (List.range (fileSz / blockSz)).map (· * blockSz)

/-- The scanned offsets whose block reads back non-zero; the verifier
increments its counter exactly at these offsets, so the reported count
is the length of this list. -/
def verifiedOffsets (ws : List (Nat × List Nat)) (blockSz fileSz : Nat) : List Nat :=
  (scanOffsets blockSz fileSz).filter
    (fun off => readBlock ws off blockSz != List.replicate blockSz 0)

/-- Observable outcome of one run of `main`: whether the backing file was
created and truncated, the write log, the verification report (the list
of verified offsets, `none` when the run never reached or finished the
scan), the fatal exit if any, and whether the run hung in the rejection
loop. -/
structure RunResult where
  created : Bool
  truncated : Bool
  writes : List (Nat × List Nat)
  report : Option (List Nat)
  fatal : Option FatalErr
  hung : Bool
deriving DecidableEq

/-- The function `main`: validate the configuration (fatal before any
file is touched), create and truncate the sparse file, run the write
loop, then scan and verify, ending with the sanity check
`count > numBlocks`. -/
def run (c : Config) (rs gs : Nat → Nat) (fuel : Nat) : RunResult :=
  match validate c with
  | some e => ⟨false, false, [], none, some e, false⟩
  | none =>
    match writeLoop c rs gs fuel c.numBlocks ⟨0, 0, 0, 0, []⟩ with
    | WriteOutcome.fatal e ws => ⟨true, true, ws, none, some e, false⟩
    | WriteOutcome.hang ws => ⟨true, true, ws, none, none, true⟩
    | WriteOutcome.done ws =>
      ⟨true, true, ws, some (verifiedOffsets ws c.blockSz c.fileSz),
        if c.numBlocks < (verifiedOffsets ws c.blockSz c.fileSz).length
        then some FatalErr.countExceeds else none, false⟩

/-- Claim C4, counterexample: the configuration of the claimed scenario,
`minRunBlocks = 5`, `maxRunBlocks = 5`, block count 5 (block size 8,
file size 80), is rejected by the up-front check
`stream-min should be less than stream-max`: the run terminates fatally
before creating the file, writes nothing, and produces no verification
report, contradicting the claim that it writes one run of 5 blocks and
reports 5 verified blocks. -/
theorem stream_min_eq_max_rejected :
    (run ⟨8, 5, 80, Mode.stream, 5, 5⟩ (fun _ => 0) (fun _ => 0) 1).writes = [] ∧
      (run ⟨8, 5, 80, Mode.stream, 5, 5⟩ (fun _ => 0) (fun _ => 0) 1).report = none ∧
      (run ⟨8, 5, 80, Mode.stream, 5, 5⟩ (fun _ => 0) (fun _ => 0) 1).fatal =
        some FatalErr.streamBounds := by
  refine ⟨?_, ?_, ?_⟩ <;> rfl

/-- Claim C4, amended: the configuration `min = 5, max = 5` is rejected
(`stream-min` must be strictly below `stream-max`); with the nearest
valid bounds `min = 5, max = 6`, block count 5, block size 8, file size
80 and a fixed seed (both streams constantly 0), the run writes exactly
one contiguous run of 5 blocks at block-aligned byte offsets
0, 8, 16, 24, 32 (logged latest first), and the verification pass
reports exactly those 5 contiguous block-aligned offsets as verified,
with no fatal exit. -/
theorem stream_run_of_five_contiguous :
    (run ⟨8, 5, 80, Mode.stream, 5, 6⟩ (fun _ => 0) (fun _ => 0) 1).writes.map Prod.fst =
        [32, 24, 16, 8, 0] ∧
      (run ⟨8, 5, 80, Mode.stream, 5, 6⟩ (fun _ => 0) (fun _ => 0) 1).report =
        some [0, 8, 16, 24, 32] ∧
      (run ⟨8, 5, 80, Mode.stream, 5, 6⟩ (fun _ => 0) (fun _ => 0) 1).fatal = none := by
  refine ⟨?_, ?_, ?_⟩ <;> rfl

theorem findStart_none_of_infeasible (rs : Nat → Nat) (tb runLen : Nat) (h : tb < runLen) :
    ∀ fuel rpos, findStart rs tb runLen rpos fuel = none := by
  intro fuel
  induction fuel with
  | zero => intro rpos; rfl
  | succ n ih =>
    intro rpos
    simp only [findStart]
    rw [if_neg (by omega), ih]

/-- The rejection loop of stream mode exits at some fuel bound: its
faithful meaning of termination. -/
def loopTerminates (rs : Nat → Nat) (rpos tb runLen : Nat) : Prop :=
  ∃ fuel, (findStart rs tb runLen rpos fuel).isSome

/-- Claim C5, counterexample: the configuration block size 4096, file
size 8192 satisfies every stated configuration invariant
(`blockSz < fileSz` and, with the default bounds, `min 5 < max 30`), yet
`totalBlocks = 2` and the smallest drawable run length is 5, so no drawn
starting index can ever satisfy `offBlock + runLength ≤ totalBlocks` and
the rejection loop never terminates, for any generator state. -/
theorem rejection_loop_stuck_small_file :
    ¬ loopTerminates (fun _ => 0) 0 (8192 / 4096) 5 ∧
      (4096 : Nat) < 8192 ∧ (5 : Nat) < 30 ∧ 8192 / 4096 = 2 ∧ (5 : Nat) ≤ 5 := by
  refine ⟨?_, by norm_num, by norm_num, by norm_num, le_refl 5⟩
  rintro ⟨fuel, h⟩
  rw [findStart_none_of_infeasible _ _ _ (by norm_num)] at h
  simp at h

/-- Claim C5, amended: the stated configuration invariants do not make
the rejection loop's exit reachable; instead, for a non-empty file the
loop can exit (for some generator state and fuel) precisely when the
drawn run length is at most `totalBlocks`.  When
`runLength > totalBlocks` no draw is ever feasible and the loop runs
forever for every generator state. -/
theorem rejection_loop_exit_iff_feasible (tb runLen : Nat) (htb : 0 < tb) :
    (∃ rs rpos, loopTerminates rs rpos tb runLen) ↔ runLen ≤ tb := by
  constructor
  · rintro ⟨rs, rpos, fuel, h⟩
    by_contra hgt
    rw [findStart_none_of_infeasible rs tb runLen (by omega)] at h
    simp at h
  · intro hle
    refine ⟨fun _ => 0, 0, 1, ?_⟩
    simp only [findStart, Nat.zero_mod, Nat.zero_add]
    rw [if_pos hle]
    rfl

theorem rejection_loop_exit_iff_feasible_witness :
    0 < 2 ∧ ((∃ rs rpos, loopTerminates rs rpos 2 2) ↔ 2 ≤ 2) :=
  ⟨by norm_num, rejection_loop_exit_iff_feasible 2 2 (by norm_num)⟩

/-- Claim C6, counterexample: block size 6 is below 8, and the
configuration passes the up-front checks of `main` (6 < 100, 5 < 30), so
the run creates and truncates the backing file before the block-size
error is detected inside `fillBuf` on the first write iteration —
contradicting the claim that no file is created or truncated before the
process terminates. -/
theorem file_created_before_blocksize_check :
    (6 : Nat) < 8 ∧
      (run ⟨6, 1, 100, Mode.rand, 5, 30⟩ (fun _ => 0) (fun _ => 0) 1).created = true ∧
      (run ⟨6, 1, 100, Mode.rand, 5, 30⟩ (fun _ => 0) (fun _ => 0) 1).truncated = true ∧
      (run ⟨6, 1, 100, Mode.rand, 5, 30⟩ (fun _ => 0) (fun _ => 0) 1).fatal =
        some FatalErr.bufTooSmall := by
  refine ⟨by norm_num, ?_, ?_, ?_⟩ <;> rfl

/-- Claim C6, amended: for every configuration that passes the up-front
checks, has at least one write to perform, and whose block size is below
8 or not a multiple of 4, the error is detected inside `fillBuf` on the
first write iteration and is fatal before any block is generated or
written (the write log is empty and no verification report is produced)
— but only after the backing file has already been created and truncated
to its configured size. -/
theorem bad_blocksize_fatal_after_create (c : Config) (rs gs : Nat → Nat) (fuel : Nat)
    (hv : validate c = none) (hbad : c.blockSz < 8 ∨ c.blockSz % 4 ≠ 0)
    (hn : 1 ≤ c.numBlocks) :
    run c rs gs fuel =
      ⟨true, true, [], none,
        some (if c.blockSz < 8 then FatalErr.bufTooSmall else FatalErr.bufMisaligned),
        false⟩ := by
  obtain ⟨k, hk⟩ : ∃ k, c.numBlocks = k + 1 := ⟨c.numBlocks - 1, by omega⟩
  have hfb : fillBuf gs 0 c.blockSz = none := by
    unfold fillBuf
    rcases hbad with h | h
    · rw [if_pos h]
    · by_cases h8 : c.blockSz < 8
      · rw [if_pos h8]
      · rw [if_neg h8, if_pos h]
  unfold run
  rw [hv, hk]
  simp only [writeLoop, hfb]

theorem bad_blocksize_fatal_after_create_witness :
    validate ⟨6, 1, 100, Mode.rand, 5, 30⟩ = none ∧
      run ⟨6, 1, 100, Mode.rand, 5, 30⟩ (fun _ => 0) (fun _ => 0) 1 =
        ⟨true, true, [], none,
          some (if (6 : Nat) < 8 then FatalErr.bufTooSmall else FatalErr.bufMisaligned),
          false⟩ :=
  ⟨by decide,
    bad_blocksize_fatal_after_create ⟨6, 1, 100, Mode.rand, 5, 30⟩ (fun _ => 0) (fun _ => 0) 1
      (by decide) (Or.inl (by decide)) (by decide)⟩

/-- Claim C8, counterexample: two runs with identical configuration and
identical configuration seed (the same seeded stream `rs`) but different
states of the package-global generator produce different files.  Payload
bytes come from `rand.Intn` on the package-global source, not from the
generator seeded by `-seed`, so the (offset, block) sequence is not a
deterministic function of the configuration alone. -/
theorem payload_depends_on_global_stream :
    (run ⟨8, 1, 16, Mode.seq, 5, 30⟩ (fun _ => 0) (fun _ => 0) 1).writes ≠
      (run ⟨8, 1, 16, Mode.seq, 5, 30⟩ (fun _ => 0) (fun _ => 1) 1).writes := by
  decide

/-- Claim C8, amended: write offsets are drawn from the stream seeded
once from the configuration seed, but block payload bytes and stream run
lengths are drawn from the package-global generator, whose initial state
Go fixes independently of the configuration; hence two runs with
identical configuration, identical seed, and identical initial
package-global generator state produce byte-identical files — the
(offset, block) sequence is a deterministic function of the
configuration together with the two generator states. -/
theorem run_deterministic_in_streams (c : Config) (rs gs rs' gs' : Nat → Nat) (fuel : Nat)
    (hr : rs = rs') (hg : gs = gs') :
    run c rs gs fuel = run c rs' gs' fuel := by
  rw [hr, hg]

theorem run_deterministic_in_streams_witness :
    (fun _ : Nat => (0 : Nat)) = (fun _ : Nat => (0 : Nat)) ∧
      run ⟨8, 1, 16, Mode.seq, 5, 30⟩ (fun _ => 0) (fun _ => 0) 1 =
        run ⟨8, 1, 16, Mode.seq, 5, 30⟩ (fun _ => 0) (fun _ => 0) 1 :=
  ⟨rfl, run_deterministic_in_streams ⟨8, 1, 16, Mode.seq, 5, 30⟩
    (fun _ => 0) (fun _ => 0) (fun _ => 0) (fun _ => 0) 1 rfl rfl⟩

/-- Claim C9, counterexample: with block size 8 (valid: at least 8, a
multiple of 4, smaller than the file) and file size 20, offset 16 is
block-aligned and strictly below the file size, and its stride would
extend past the end of the file — but the verifier never reads it: the
scan stops at `totalBlocks = fileSz / blockSz = 2` strides, offsets 0
and 8 only. -/
theorem tail_offset_not_scanned :
    (16 : Nat) % 8 = 0 ∧ (16 : Nat) < 20 ∧ (16 : Nat) ∉ scanOffsets 8 20 ∧
      (8 : Nat) < 20 ∧ (8 : Nat) % 4 = 0 ∧ (8 : Nat) ≤ 8 := by
  refine ⟨by norm_num, by norm_num, ?_, by norm_num, by norm_num, le_refl 8⟩
  decide

/-- Claim C9, amended: the verifier reads one `blockSize`-sized stride at
exactly the block-aligned offsets whose whole stride fits inside the
file, `offset = i * blockSize` for `i < fileSize / blockSize`; when
`blockSize` does not divide `fileSize` evenly, the final block-aligned
offset below `fileSize` (whose stride would extend past the end of the
file) is not read, and the tail of the file is left unscanned. -/
theorem scan_offsets_iff (blockSz fileSz o : Nat) (hB : 0 < blockSz) :
    o ∈ scanOffsets blockSz fileSz ↔ blockSz ∣ o ∧ o + blockSz ≤ fileSz := by
  simp only [scanOffsets, List.mem_map, List.mem_range]
  constructor
  · rintro ⟨i, hi, rfl⟩
    refine ⟨Dvd.intro_left i rfl, ?_⟩
    have h1 : i + 1 ≤ fileSz / blockSz := hi
    calc i * blockSz + blockSz = (i + 1) * blockSz := by ring
    _ ≤ fileSz / blockSz * blockSz := Nat.mul_le_mul_right _ h1
    _ ≤ fileSz := Nat.div_mul_le_self fileSz blockSz
  · rintro ⟨⟨m, rfl⟩, hle⟩
    refine ⟨m, ?_, Nat.mul_comm m blockSz⟩
    have h1 : (m + 1) * blockSz ≤ fileSz := by
      have : (m + 1) * blockSz = blockSz * m + blockSz := by ring
      omega
    have h2 : m + 1 ≤ fileSz / blockSz := (Nat.le_div_iff_mul_le hB).mpr h1
    omega

theorem scan_offsets_iff_witness :
    0 < 8 ∧ ((8 : Nat) ∈ scanOffsets 8 20 ↔ (8 : Nat) ∣ 8 ∧ 8 + 8 ≤ 20) :=
  ⟨by norm_num, scan_offsets_iff 8 20 8 (by norm_num)⟩

/-- One line of the diagnostic hexdump of `printBuf`: the 16 bytes
`b[i+j]` for `j = 0 … 15`.  In Go an index at or past `len(b)` panics,
modelled as `none`. -/
def hexLine (b : List Nat) (i : Nat) : Option (List Nat) :=
  if i + 16 ≤ b.length then some ((List.range 16).map (fun j => b.getD (i + j) 0))
  else none

/-- The function `printBuf`: one hexdump line for each `i = 0, 16, 32, …`
with `i < len(b)` (that is, `ceil(len(b) / 16)` lines); `none` when any
line indexes out of range (the Go code panics there). -/
def printBuf (b : List Nat) : Option (List (List Nat)) :=
  (List.range ((b.length + 15) / 16)).mapM (fun k => hexLine b (16 * k))

/-- Claim C7: the claim says a checksum mismatch on a non-zero block is
reported with a diagnostic dump and never aborts the run for any block
size satisfying the configuration invariants; the code violates this.
The 20-byte block below is non-zero and fails verification under a valid
block size (20 ≥ 8, a multiple of 4), yet `printBuf` indexes bytes
20 … 31 of a 20-byte buffer while emitting the dump and panics
(modelled as `none`), aborting the run. -/
theorem printBuf_panics_on_valid_blocksize :
    (List.replicate 19 0 ++ [1]).length = 20 ∧
      (8 ≤ 20 ∧ 20 % 4 = 0 ∧ (20 : Nat) % 16 ≠ 0) ∧
      List.replicate 19 0 ++ [1] ≠ List.replicate 20 (0 : Nat) ∧
      verifyBuf (List.replicate 19 0 ++ [1]) = false ∧
      printBuf (List.replicate 19 0 ++ [1]) = none := by
  refine ⟨by decide, ⟨by decide, by decide, by decide⟩, by decide, by decide, by decide⟩

/-- Every write in a log is block-aligned and exactly one block long. -/
def AlignedWrites (blockSz : Nat) (ws : List (Nat × List Nat)) : Prop :=
  ∀ w ∈ ws, blockSz ∣ w.1 ∧ w.2.length = blockSz

theorem writeLoop_succ_cases (c : Config) (rs gs : Nat → Nat) (fuel rem : Nat)
    (st : GenState) :
    (fillBuf gs st.gpos c.blockSz = none ∧
      writeLoop c rs gs fuel (rem + 1) st =
        WriteOutcome.fatal
          (if c.blockSz < 8 then FatalErr.bufTooSmall else FatalErr.bufMisaligned)
          st.writes) ∨
    (∃ b st', fillBuf gs st.gpos c.blockSz = some b ∧
      writeLoop c rs gs fuel (rem + 1) st = writeLoop c rs gs fuel rem st' ∧
      st'.writes = (st'.off, b) :: st.writes ∧
      (c.blockSz ∣ st.off → c.blockSz ∣ st'.off)) ∨
    writeLoop c rs gs fuel (rem + 1) st = WriteOutcome.hang st.writes := by
  cases hfb : fillBuf gs st.gpos c.blockSz with
  | none =>
    left
    exact ⟨rfl, by simp only [writeLoop, hfb]⟩
  | some b =>
    cases hm : c.mode with
    | rand =>
      right; left
      refine ⟨b, ⟨st.gpos + c.blockSz, st.rpos + 1, rs st.rpos % totalBlocks c * c.blockSz,
        st.streamRem, (rs st.rpos % totalBlocks c * c.blockSz, b) :: st.writes⟩,
        rfl, ?_, rfl, fun _ => (dvd_refl c.blockSz).mul_left _⟩
      simp only [writeLoop, hfb, hm]
    | seq =>
      right; left
      refine ⟨b, ⟨st.gpos + c.blockSz, st.rpos, (c.numBlocks - (rem + 1)) * c.blockSz,
        st.streamRem, ((c.numBlocks - (rem + 1)) * c.blockSz, b) :: st.writes⟩,
        rfl, ?_, rfl, fun _ => (dvd_refl c.blockSz).mul_left _⟩
      simp only [writeLoop, hfb, hm]
    | stream =>
      by_cases hsr : st.streamRem = 0
      · cases hfs : findStart rs (totalBlocks c)
          (c.minBlocks + gs (st.gpos + c.blockSz) % (c.maxBlocks - c.minBlocks + 1))
          st.rpos fuel with
        | none =>
          right; right
          simp only [writeLoop, hfb, hm, hsr, eq_self_iff_true, if_true, hfs]
        | some p =>
          obtain ⟨ob, rpos2⟩ := p
          right; left
          refine ⟨b, ⟨st.gpos + c.blockSz + 1, rpos2, ob * c.blockSz,
            c.minBlocks + gs (st.gpos + c.blockSz) % (c.maxBlocks - c.minBlocks + 1) - 1,
            (ob * c.blockSz, b) :: st.writes⟩,
            rfl, ?_, rfl, fun _ => (dvd_refl c.blockSz).mul_left _⟩
          simp only [writeLoop, hfb, hm, hsr, eq_self_iff_true, if_true, hfs]
      · right; left
        refine ⟨b, ⟨st.gpos + c.blockSz, st.rpos, st.off + c.blockSz,
          st.streamRem - 1, (st.off + c.blockSz, b) :: st.writes⟩,
          rfl, ?_, rfl, fun h => Dvd.dvd.add h (dvd_refl c.blockSz)⟩
        simp only [writeLoop, hfb, hm, if_neg hsr]

theorem writeLoop_done_length (c : Config) (rs gs : Nat → Nat) (fuel : Nat) :
    ∀ (rem : Nat) (st : GenState) (ws : List (Nat × List Nat)),
      writeLoop c rs gs fuel rem st = WriteOutcome.done ws →
        ws.length = rem + st.writes.length := by
  intro rem
  induction rem with
  | zero =>
    intro st ws h
    simp only [writeLoop] at h
    cases h
    simp
  | succ n ih =>
    intro st ws h
    rcases writeLoop_succ_cases c rs gs fuel n st with ⟨_, he⟩ | ⟨b, st', _, he, hw, _⟩ | he
    · rw [he] at h; cases h
    · rw [he] at h
      have := ih st' ws h
      rw [hw] at this
      simp only [List.length_cons] at this
      omega
    · rw [he] at h; cases h

theorem writeLoop_done_aligned (c : Config) (rs gs : Nat → Nat) (fuel : Nat) :
    ∀ (rem : Nat) (st : GenState) (ws : List (Nat × List Nat)),
      AlignedWrites c.blockSz st.writes → c.blockSz ∣ st.off →
      writeLoop c rs gs fuel rem st = WriteOutcome.done ws →
        AlignedWrites c.blockSz ws := by
  intro rem
  induction rem with
  | zero =>
    intro st ws hal _ h
    simp only [writeLoop] at h
    cases h
    exact hal
  | succ n ih =>
    intro st ws hal hoff h
    rcases writeLoop_succ_cases c rs gs fuel n st with ⟨_, he⟩ | ⟨b, st', hfb, he, hw, hd⟩ | he
    · rw [he] at h; cases h
    · rw [he] at h
      obtain ⟨_, _, _, hblen⟩ := fillBuf_some gs st.gpos c.blockSz b hfb
      refine ih st' ws ?_ (hd hoff) h
      rw [hw]
      intro w hwmem
      rcases List.mem_cons.mp hwmem with rfl | hmem
      · exact ⟨hd hoff, hblen⟩
      · exact hal w hmem
    · rw [he] at h; cases h

theorem writeLoop_succ_done_blockSz (c : Config) (rs gs : Nat → Nat)
    (fuel rem : Nat) (st : GenState) (ws : List (Nat × List Nat))
    (h : writeLoop c rs gs fuel (rem + 1) st = WriteOutcome.done ws) :
    8 ≤ c.blockSz := by
  rcases writeLoop_succ_cases c rs gs fuel rem st with ⟨_, he⟩ | ⟨b, st', hfb, _, _, _⟩ | he
  · rw [he] at h; cases h
  · exact (fillBuf_some gs st.gpos c.blockSz b hfb).1
  · rw [he] at h; cases h

theorem readByte_ne_zero (ws : List (Nat × List Nat)) (addr : Nat)
    (h : readByte ws addr ≠ 0) :
    ∃ w ∈ ws, w.1 ≤ addr ∧ addr < w.1 + w.2.length := by
  induction ws with
  | nil => exact absurd rfl h
  | cons w rest ih =>
    obtain ⟨o, d⟩ := w
    by_cases hc : o ≤ addr ∧ addr < o + d.length
    · exact ⟨(o, d), List.mem_cons_self _ _, hc⟩
    · have hr : readByte ((o, d) :: rest) addr = readByte rest addr := by
        simp only [readByte]
        rw [if_neg hc]
      rw [hr] at h
      obtain ⟨w', hw', hcov⟩ := ih h
      exact ⟨w', List.mem_cons_of_mem _ hw', hcov⟩

theorem map_range_eq_replicate_zero (f : Nat → Nat) (n : Nat) (h : ∀ j < n, f j = 0) :
    (List.range n).map f = List.replicate n 0 := by
  apply List.ext_getElem
  · simp
  · intro i h1 h2
    simp only [List.getElem_map, List.getElem_range, List.getElem_replicate]
    exact h i (by simpa using h1)

theorem readBlock_ne_replicate (ws : List (Nat × List Nat)) (off n : Nat)
    (h : readBlock ws off n ≠ List.replicate n 0) :
    ∃ j < n, readByte ws (off + j) ≠ 0 := by
  by_contra hall
  push_neg at hall
  exact h (map_range_eq_replicate_zero _ n hall)

theorem cover_block_eq (blockSz i j o dl : Nat) (hB : 0 < blockSz)
    (hdvd : blockSz ∣ o) (hdl : dl = blockSz)
    (h1 : o ≤ i * blockSz + j) (h2 : i * blockSz + j < o + dl) (hj : j < blockSz) :
    o = i * blockSz := by
  rw [hdl] at h2
  obtain ⟨m, rfl⟩ := hdvd
  have hmul : blockSz * m = m * blockSz := Nat.mul_comm _ _
  rw [hmul] at h1 h2 ⊢
  have hm1 : m < i + 1 := by
    apply Nat.lt_of_mul_lt_mul_right (a := blockSz)
    have : (i + 1) * blockSz = i * blockSz + blockSz := by ring
    omega
  have hm2 : i < m + 1 := by
    apply Nat.lt_of_mul_lt_mul_right (a := blockSz)
    have : (m + 1) * blockSz = m * blockSz + blockSz := by ring
    omega
  have : m = i := by omega
  rw [this]

theorem verified_mem_writes (ws : List (Nat × List Nat)) (blockSz fileSz : Nat)
    (hal : AlignedWrites blockSz ws) (hB : 0 < blockSz) :
    ∀ off ∈ verifiedOffsets ws blockSz fileSz, off ∈ ws.map Prod.fst := by
  intro off hoff
  rw [verifiedOffsets, List.mem_filter] at hoff
  obtain ⟨hscan, hpred⟩ := hoff
  have hne : readBlock ws off blockSz ≠ List.replicate blockSz 0 := bne_iff_ne.mp hpred
  obtain ⟨j, hj, hbyte⟩ := readBlock_ne_replicate ws off blockSz hne
  obtain ⟨w, hw, hle, hlt⟩ := readByte_ne_zero ws (off + j) hbyte
  simp only [scanOffsets, List.mem_map, List.mem_range] at hscan
  obtain ⟨i, _, rfl⟩ := hscan
  obtain ⟨hdvd, hlen⟩ := hal w hw
  have heq : w.1 = i * blockSz :=
    cover_block_eq blockSz i j w.1 w.2.length hB hdvd hlen hle hlt hj
  rw [List.mem_map]
  exact ⟨w, hw, heq⟩

theorem verifiedOffsets_nodup (ws : List (Nat × List Nat)) (blockSz fileSz : Nat)
    (hB : 0 < blockSz) : (verifiedOffsets ws blockSz fileSz).Nodup := by
  apply List.Nodup.filter
  exact (List.nodup_range _).map (fun a b h => Nat.eq_of_mul_eq_mul_right hB h)

theorem nodup_subset_length_le (l m : List Nat) (hn : l.Nodup)
    (hsub : ∀ a ∈ l, a ∈ m) : l.length ≤ m.length := by
  classical
  have h1 : l.toFinset.card = l.length := by
    rw [List.card_toFinset, hn.dedup]
  have h2 : l.toFinset ⊆ m.toFinset := by
    intro a ha
    rw [List.mem_toFinset] at ha ⊢
    exact hsub a ha
  calc l.length = l.toFinset.card := h1.symm
  _ ≤ m.toFinset.card := Finset.card_le_card h2
  _ ≤ m.length := List.toFinset_card_le m

theorem verifiedOffsets_nil (blockSz fileSz : Nat) :
    verifiedOffsets [] blockSz fileSz = [] := by
  unfold verifiedOffsets
  apply List.filter_eq_nil_iff.mpr
  intro off _
  have hz : readBlock [] off blockSz = List.replicate blockSz 0 :=
    map_range_eq_replicate_zero _ blockSz (fun j _ => rfl)
  rw [hz]
  simp

/-- Claim C2: for every placement mode, every seed (pair of generator
streams), and every configuration, a completed run's verified-block
count (the number of block-aligned strides that read back non-zero)
never exceeds the configured number of write operations performed, so
the final fatal sanity check `count > numBlocks` is unreachable. -/
theorem verified_count_le_numBlocks (c : Config) (rs gs : Nat → Nat) (fuel : Nat)
    (v : List Nat) (h : (run c rs gs fuel).report = some v) :
    v.length ≤ c.numBlocks ∧ (run c rs gs fuel).fatal = none := by
  cases hv : validate c with
  | some e =>
    have hrun : run c rs gs fuel = ⟨false, false, [], none, some e, false⟩ := by
      unfold run; rw [hv]
    rw [hrun] at h
    simp at h
  | none =>
    cases hw : writeLoop c rs gs fuel c.numBlocks ⟨0, 0, 0, 0, []⟩ with
    | fatal e ws =>
      have hrun : run c rs gs fuel = ⟨true, true, ws, none, some e, false⟩ := by
        unfold run; rw [hv, hw]
      rw [hrun] at h
      simp at h
    | hang ws =>
      have hrun : run c rs gs fuel = ⟨true, true, ws, none, none, true⟩ := by
        unfold run; rw [hv, hw]
      rw [hrun] at h
      simp at h
    | done ws =>
      have hrun : run c rs gs fuel =
          ⟨true, true, ws, some (verifiedOffsets ws c.blockSz c.fileSz),
            if c.numBlocks < (verifiedOffsets ws c.blockSz c.fileSz).length
            then some FatalErr.countExceeds else none, false⟩ := by
        unfold run; rw [hv, hw]
      rw [hrun] at h ⊢
      have hv' : v = verifiedOffsets ws c.blockSz c.fileSz := by
        simpa using h.symm
      have hlenws : ws.length = c.numBlocks := by
        have := writeLoop_done_length c rs gs fuel c.numBlocks ⟨0, 0, 0, 0, []⟩ ws hw
        simpa using this
      have hle : (verifiedOffsets ws c.blockSz c.fileSz).length ≤ c.numBlocks := by
        cases hws : ws with
        | nil =>
          rw [verifiedOffsets_nil]
          simp
        | cons w ws' =>
          have hB : 8 ≤ c.blockSz := by
            obtain ⟨k, hk⟩ : ∃ k, c.numBlocks = k + 1 := by
              rw [← hlenws, hws]
              exact ⟨ws'.length, by simp⟩
            rw [hk] at hw
            exact writeLoop_succ_done_blockSz c rs gs fuel k _ ws hw
          have hpos : 0 < c.blockSz := by omega
          have hal : AlignedWrites c.blockSz ws := by
            refine writeLoop_done_aligned c rs gs fuel c.numBlocks ⟨0, 0, 0, 0, []⟩ ws ?_ ?_ hw
            · intro w hwmem; cases hwmem
            · exact dvd_zero c.blockSz
          rw [← hws]
          calc (verifiedOffsets ws c.blockSz c.fileSz).length
              ≤ (ws.map Prod.fst).length := by
                apply nodup_subset_length_le
                · exact verifiedOffsets_nodup ws c.blockSz c.fileSz hpos
                · exact verified_mem_writes ws c.blockSz c.fileSz hal hpos
          _ = ws.length := List.length_map _ _
          _ = c.numBlocks := hlenws
      constructor
      · rw [hv']; exact hle
      · show (if c.numBlocks < (verifiedOffsets ws c.blockSz c.fileSz).length
          then some FatalErr.countExceeds else none) = none
        rw [if_neg (by omega)]

theorem verified_count_le_numBlocks_witness :
    (run ⟨8, 2, 32, Mode.seq, 5, 30⟩ (fun _ => 0) (fun _ => 0) 1).report = some [0, 8] ∧
      ([0, 8] : List Nat).length ≤ 2 ∧
      (run ⟨8, 2, 32, Mode.seq, 5, 30⟩ (fun _ => 0) (fun _ => 0) 1).fatal = none := by
  have h : (run ⟨8, 2, 32, Mode.seq, 5, 30⟩ (fun _ => 0) (fun _ => 0) 1).report = some [0, 8] := by
    rfl
  have := verified_count_le_numBlocks ⟨8, 2, 32, Mode.seq, 5, 30⟩ (fun _ => 0) (fun _ => 0) 1
    [0, 8] h
  exact ⟨h, this.1, this.2⟩

end SparseFile
